import Mathlib

/- Shallow embedding of src/pg_slowwatch.py: a PostgreSQL slow-query log
watcher that tails a log file, aggregates slow-query counters and publishes
them as a Prometheus textfile.  Strings are modelled as lists of characters;
Python floats are idealised as rationals; the stateful pieces (the follower
generator, the atomic metrics writer) are modelled as explicit step
functions over small state structures. -/

namespace PgSlowwatch

abbrev Chars := List Char

/-- Python regex class \s restricted to the ASCII whitespace characters
(space, tab, newline, carriage return, vertical tab, form feed). -/
def isPySpace (c : Char) : Bool :=
  c = ' ' || c = '\t' || c = '\n' || c = '\r' || c = '\x0b' || c = '\x0c'

/-- Case-insensitive match of a literal pattern (given in lower case) against
a prefix of the input, returning the remainder on success.  Models the
re.IGNORECASE literal parts of DURATION_RE (src/pg_slowwatch.py line 32). -/
def matchCI : Chars → Chars → Option Chars
  | [], s => some s
  | _ :: _, [] => none
  | p :: ps, c :: cs => if c.toLower = p then matchCI ps cs else none

/-- Numeric value of a list of decimal digit characters. -/
def natOfDigits (ds : Chars) : Nat :=
  ds.foldl (fun n c => 10 * n + (c.toNat - 48)) 0

/-- Rational value of the group captured by DURATION_RE: the integer digits
plus an optional fractional digit group. -/
def ratOfDigits (ds fs : Chars) : ℚ :=
  (natOfDigits ds : ℚ) + (natOfDigits fs : ℚ) / (10 : ℚ) ^ fs.length

/-- Attempt to match DURATION_RE at the start of the given suffix, returning
the captured group as its integer digits and fractional digits.  The
pattern (src/pg_slowwatch.py line 32) is duration: then one or more
whitespace, then digits with an optional .digits fraction, then optional
whitespace, then ms, case-insensitively.  The greedy runs are deterministic
here: giving back a character from a digit or whitespace run can never
produce a match when the greedy run failed, because the character classes
at each boundary are pairwise disjoint. -/
def matchDurAt (s : Chars) : Option (Chars × Chars) :=
  match matchCI "duration:".data s with
  | none => none
  | some r1 =>
    let ws := r1.takeWhile isPySpace
    let r2 := r1.dropWhile isPySpace
    if ws.isEmpty then none
    else
      let ds := r2.takeWhile Char.isDigit
      let r3 := r2.dropWhile Char.isDigit
      if ds.isEmpty then none
      else
        let fr : Chars × Chars :=
          match r3 with
          | '.' :: r =>
            let fs := r.takeWhile Char.isDigit
            if fs.isEmpty then ([], r3) else (fs, r.dropWhile Char.isDigit)
          | _ => ([], r3)
        let r5 := fr.2.dropWhile isPySpace
        match matchCI "ms".data r5 with
        | none => none
        | some _ => some (ds, fr.1)

/-- Leftmost search of DURATION_RE over a line (re.search, called at
src/pg_slowwatch.py line 165): try each start position from the left and
return the first match, as the digit groups of the captured number. -/
def findDurationDigits : Chars → Option (Chars × Chars)
  | [] => none
  | c :: cs =>
    match matchDurAt (c :: cs) with
    | some g => some g
    | none => findDurationDigits cs

/-- The duration value of a line: the captured group of the leftmost
DURATION_RE match converted to a number (float(m.group(1)) at
src/pg_slowwatch.py line 170, idealised over rationals). -/
def findDuration (l : Chars) : Option ℚ :=
  (findDurationDigits l).map fun g => ratOfDigits g.1 g.2

/-- Character class of the user group of USER_DB_RE: anything but @ and
whitespace. -/
def isUserChar (c : Char) : Bool := !isPySpace c && c != '@'

/-- Attempt to match USER_DB_RE (src/pg_slowwatch.py line 33) at the start
of the given suffix: a whitespace character, a nonempty run free of @ and
whitespace (the user), an @, a nonempty run free of whitespace (the db,
which may itself contain further @ characters), then a whitespace
character. -/
def matchUserDbAt : Chars → Option (Chars × Chars)
  | [] => none
  | c :: cs =>
    if isPySpace c then
      let u := cs.takeWhile isUserChar
      let r1 := cs.dropWhile isUserChar
      if u.isEmpty then none
      else
        match r1 with
        | a :: r2 =>
          if a = '@' then
            let d := r2.takeWhile (fun x => !isPySpace x)
            let r3 := r2.dropWhile (fun x => !isPySpace x)
            if d.isEmpty then none
            else if r3.isEmpty then none else some (u, d)
          else none
        | [] => none
    else none

/-- Leftmost search of USER_DB_RE over a line (re.search, called at
src/pg_slowwatch.py line 161). -/
def findUserDb : Chars → Option (Chars × Chars)
  | [] => none
  | c :: cs =>
    match matchUserDbAt (c :: cs) with
    | some ud => some ud
    | none => findUserDb cs

/-- One counter bucket: a count of slow queries and the sum of their
durations in milliseconds (the per-key dicts of src/pg_slowwatch.py
line 177 and the pair of globals at lines 151-152). -/
structure Bucket where
  count : Nat
  sum : ℚ
deriving DecidableEq

abbrev Key := String × String

/-- In-memory aggregate state of main (src/pg_slowwatch.py lines 151-154):
the global counters and the per-(user, db) buckets.  per_key models the
Python dict as an association list in insertion order. -/
structure AggState where
  slow_count_total : Nat
  slow_ms_sum_total : ℚ
  per_key : List (Key × Bucket)
deriving DecidableEq

def initState : AggState := ⟨0, 0, []⟩

/-- Python dict lookup per_key.get(key). -/
def getKey : List (Key × Bucket) → Key → Option Bucket
  | [], _ => none
  | (k1, b) :: rest, k => if k1 = k then some b else getKey rest k

/-- The find-or-create followed by the two increments of src/pg_slowwatch.py
lines 175-180: an existing bucket is updated in place, a missing key gets
the fresh bucket with count 0 and sum 0 appended at the end of the dict
(insertion order) and then incremented. -/
def bump : List (Key × Bucket) → Key → ℚ → List (Key × Bucket)
  | [], k, x => [(k, ⟨0 + 1, 0 + x⟩)]
  | (k1, b) :: rest, k, x =>
    if k1 = k then (k1, ⟨b.count + 1, b.sum + x⟩) :: rest
    else (k1, b) :: bump rest k x

/-- Bucket stored for a key, defaulting to the fresh bucket. -/
def getBucket (st : AggState) (k : Key) : Bucket :=
  (getKey st.per_key k).getD ⟨0, 0⟩

/-- Processing of one line by the main loop (src/pg_slowwatch.py lines
160-180): search for the optional user@db attribute and for the duration;
without a duration the state is untouched; with a duration at or above the
threshold both the global counters and the bucket of the extracted key
(falling back to ("unknown", "unknown"), since the captured groups are
always nonempty and hence truthy) are incremented. -/
def processLine (θ : ℚ) (st : AggState) (line : Chars) : AggState :=
  let mud := findUserDb line
  match findDuration line with
  | none => st
  | some dur =>
    if θ ≤ dur then
      let key : Key :=
        match mud with
        | some (u, d) => (⟨u⟩, ⟨d⟩)
        | none => ("unknown", "unknown")
      { slow_count_total := st.slow_count_total + 1
        slow_ms_sum_total := st.slow_ms_sum_total + dur
        per_key := bump st.per_key key dur }
    else st

/-- Aggregate state after processing a sequence of lines from the initial
empty state. -/
def runLines (θ : ℚ) (ls : List Chars) : AggState :=
  ls.foldl (processLine θ) initState

/-- Componentwise comparison of one bucket's counters. -/
def bucketLE (b b1 : Bucket) : Prop := b.count ≤ b1.count ∧ b.sum ≤ b1.sum

/-- Monotonicity relation between aggregate states: the global counters do
not decrease and every existing per-key bucket persists with counters that
do not decrease. -/
def stateLE (s s1 : AggState) : Prop :=
  s.slow_count_total ≤ s1.slow_count_total ∧
  s.slow_ms_sum_total ≤ s1.slow_ms_sum_total ∧
  ∀ k b, getKey s.per_key k = some b →
    ∃ b1, getKey s1.per_key k = some b1 ∧ bucketLE b b1

/-- Nonnegativity of every counter in the aggregate state, global and
per key. -/
def stateNonneg (s : AggState) : Prop :=
  0 ≤ s.slow_count_total ∧ 0 ≤ s.slow_ms_sum_total ∧
  ∀ k b, getKey s.per_key k = some b → 0 ≤ b.count ∧ 0 ≤ b.sum

/-- The per-key buckets partition the global totals: per-key counts sum to
the global count and per-key sums add up to the global sum. -/
def partitioned (s : AggState) : Prop :=
  (s.per_key.map (fun e => e.2.count)).sum = s.slow_count_total ∧
  (s.per_key.map (fun e => e.2.sum)).sum = s.slow_ms_sum_total

/-- Python dict update lbls[k] = v: replace the value of an existing key in
place, or append a new key at the end. -/
def dictSet : List (String × String) → String → String → List (String × String)
  | [], k, v => [(k, v)]
  | (k1, v1) :: rest, k, v =>
    if k1 = k then (k1, v) :: rest else (k1, v1) :: dictSet rest k v

/-- Python string comparison: strict lexicographic order on the code
points. -/
def charsLt : Chars → Chars → Bool
  | [], [] => false
  | [], _ :: _ => true
  | _ :: _, [] => false
  | a :: as, b :: bs =>
    if a.toNat < b.toNat then true
    else if b.toNat < a.toNat then false
    else charsLt as bs

/-- Python string comparison, non-strict. -/
def charsLe (a b : Chars) : Bool := !charsLt b a

/-- Order used by the sorted call of format_labels (src/pg_slowwatch.py
line 71): compare label items by name only, in code-point string order. -/
def labelLe (a b : String × String) : Bool := charsLe a.1.data b.1.data

@[reducible]
def labelLE (a b : String × String) : Prop := labelLe a b = true

/-- Label items of format_labels (src/pg_slowwatch.py lines 64-71): the
static labels, with db and user merged in when present and truthy, sorted
by label name. -/
def sortedLabelItems (extra : List (String × String)) (db user : Option String) :
    List (String × String) :=
  let l1 := match db with
    | some d => if d = "" then extra else dictSet extra "db" d
    | none => extra
  let l2 := match user with
    | some u => if u = "" then l1 else dictSet l1 "user" u
    | none => l1
  List.insertionSort labelLE l2

/-- format_labels (src/pg_slowwatch.py lines 64-73): render the sorted label
items as a comma-separated name="value" list in braces, or the empty string
when there are no labels. -/
def format_labels (extra : List (String × String)) (db user : Option String) : String :=
  let items := sortedLabelItems extra db user
  let inside := String.intercalate "," (items.map (fun kv => kv.1 ++ "=\"" ++ kv.2 ++ "\""))
  if inside = "" then "" else "\x7b" ++ inside ++ "\x7d"

/-- Round a rational to the nearest integer with ties to even, matching the
rounding used by Python float formatting. -/
def roundHalfEven (y : ℚ) : ℤ :=
  let f := ⌊y⌋
  let r := y - (f : ℚ)
  if r < 1 / 2 then f
  else if 1 / 2 < r then f + 1
  else if f % 2 = 0 then f else f + 1

/-- Python .3f formatting, idealised over rationals: three digits after the
decimal point, rounded half to even. -/
def fmt3 (q : ℚ) : String :=
  let n := roundHalfEven (q * 1000)
  let a := n.natAbs
  let ip := a / 1000
  let fp := a % 1000
  let fs := toString fp
  (if n < 0 then "-" else "") ++ toString ip ++ "." ++
    String.mk (List.replicate (3 - fs.length) '0') ++ fs

/-- Python tuple comparison on the (user, db) key pairs, as used by
sorted(per_key.items()) (src/pg_slowwatch.py line 198): compare the first
components in code-point order, then the second components.  Key pairs in
the dict are distinct, so the comparison never reaches the bucket
component. -/
def keyLe (a b : Key) : Bool :=
  if charsLt a.1.data b.1.data then true
  else if charsLt b.1.data a.1.data then false
  else charsLe a.2.data b.2.data

@[reducible]
def entryLE (a b : Key × Bucket) : Prop := keyLe a.1 b.1 = true

/-- The per-key buckets in rendering order: sorted by key pair. -/
def sortedPerKey (l : List (Key × Bucket)) : List (Key × Bucket) :=
  List.insertionSort entryLE l

/-- Metric exposition lines composed at flush time (src/pg_slowwatch.py
lines 184-203): HELP and TYPE headers, the two global metric lines, then
two lines per bucket in sorted key order. -/
def renderLines (extra : List (String × String)) (st : AggState) : List String :=
  ["# HELP pg_slow_queries_total Count of slow queries observed by log parser.",
   "# TYPE pg_slow_queries_total counter",
   "# HELP pg_slow_queries_ms_sum Sum of durations (ms) for slow queries.",
   "# TYPE pg_slow_queries_ms_sum counter",
   "pg_slow_queries_total" ++ format_labels extra none none ++ " " ++
     toString st.slow_count_total,
   "pg_slow_queries_ms_sum" ++ format_labels extra none none ++ " " ++
     fmt3 st.slow_ms_sum_total]
  ++ (sortedPerKey st.per_key).flatMap (fun e =>
       ["pg_slow_queries_total" ++ format_labels extra (some e.1.2) (some e.1.1) ++
          " " ++ toString e.2.count,
        "pg_slow_queries_ms_sum" ++ format_labels extra (some e.1.2) (some e.1.1) ++
          " " ++ fmt3 e.2.sum])

/-- The rendered payload: the lines joined with newlines plus a trailing
newline (src/pg_slowwatch.py line 203). -/
def render (extra : List (String × String)) (st : AggState) : String :=
  String.intercalate "\n" (renderLines extra st) ++ "\n"

/-- Elementary filesystem actions of write_metrics_atomic
(src/pg_slowwatch.py lines 75-83), with the payload write decomposed
character by character so that a failure in the middle of the write is
representable as a truncated action sequence. -/
inductive PubOp where
  | mkTemp
  | putChar (c : Char)
  | flushTmp
  | fsyncTmp
  | renameTmpToDest
deriving DecidableEq

/-- Contents at the destination path and at the temporary file (none when
the file does not exist). -/
structure PubFS where
  dest : Option Chars
  tmp : Option Chars
deriving DecidableEq

/-- Effect of one elementary action: only the final atomic rename touches
the destination; all earlier actions touch the temporary file alone. -/
def applyPubOp (s : PubFS) : PubOp → PubFS
  | .mkTemp => { s with tmp := some [] }
  | .putChar c => { s with tmp := s.tmp.map (fun t => t ++ [c]) }
  | .flushTmp => s
  | .fsyncTmp => s
  | .renameTmpToDest => { dest := s.tmp, tmp := none }

/-- The action sequence of write_metrics_atomic: create the temp file in the
destination directory, write the payload, flush, fsync, then atomically
rename over the destination. -/
def pubOps (content : Chars) : List PubOp :=
  .mkTemp :: (content.map PubOp.putChar ++ [.flushTmp, .fsyncTmp, .renameTmpToDest])

/-- Run a prefix of the action sequence (a failure aborts the rest). -/
def runPub (s : PubFS) (ops : List PubOp) : PubFS :=
  ops.foldl applyPubOp s

/-- The watched file as currently present at the log path: inode and
content. -/
structure WFile where
  ino : Nat
  content : Chars
deriving DecidableEq

/-- State of the tail_follow generator (src/pg_slowwatch.py lines 85-135):
the open handle's inode, the content of the file that handle refers to
(shared with the path's file until a rotation replaces the path's inode),
and the handle's read offset.  The recorded last_ino is always the handle's
inode in this code, so it is represented once. -/
structure FollowSt where
  hIno : Nat
  hContent : Chars
  offset : Nat
deriving DecidableEq

/-- open_file (src/pg_slowwatch.py lines 92-103): open the path's current
file, record its inode, and seek to the end. -/
def openFile (w : WFile) : FollowSt :=
  ⟨w.ino, w.content, w.content.length⟩

/-- Python f.readline(): the chunk up to and including the first newline, or
everything that remains when no newline is present (the unterminated final
line), or the empty string at end of file. -/
def chunkOf : Chars → Chars
  | [] => []
  | c :: cs => if c = '\n' then [c] else c :: chunkOf cs

/-- One iteration of the follower loop (src/pg_slowwatch.py lines 116-135):
read a line; on a nonempty read yield it and advance the offset; on an
empty read run the rotation/truncation check, reopening (which seeks to the
end of the new content) when the path's inode differs from the handle's or
the path's size is below the read offset. -/
def pollStep (w : WFile) (st : FollowSt) : FollowSt × Option Chars :=
  let rest := st.hContent.drop st.offset
  let line := chunkOf rest
  if line.isEmpty then
    if w.ino ≠ st.hIno ∨ w.content.length < st.offset then (openFile w, none)
    else (st, none)
  else ({ st with offset := st.offset + line.length }, some line)

/-- Environment and scheduler events for the follower: external file
manipulations interleaved with follower loop iterations. -/
inductive LogEv where
  | append (s : Chars)
  | truncate
  | rotate (n : Nat) (s : Chars)
  | poll

/-- World transition: appends and truncation act on the path's file and are
visible through the handle while it still refers to the path's inode;
rotation replaces the path's file and freezes the handle's view; poll runs
one follower iteration, collecting any yielded line. -/
def stepEv : WFile × FollowSt × List Chars → LogEv → WFile × FollowSt × List Chars
  | (w, st, out), .append s =>
    ({ w with content := w.content ++ s },
     if st.hIno = w.ino then { st with hContent := st.hContent ++ s } else st, out)
  | (w, st, out), .truncate =>
    ({ w with content := [] },
     if st.hIno = w.ino then { st with hContent := [] } else st, out)
  | (_, st, out), .rotate n s => (⟨n, s⟩, st, out)
  | (w, st, out), .poll =>
    let p := pollStep w st
    (w, p.1, out ++ p.2.toList)

/-- Run the follower from the initial open (which seeks to the end of the
file present at start) through a sequence of events, collecting the yielded
lines. -/
def runFollow (w0 : WFile) (evs : List LogEv) : WFile × FollowSt × List Chars :=
  evs.foldl stepEv (w0, openFile w0, [])

theorem charsLt_irrefl : ∀ a : Chars, charsLt a a = false
  | [] => rfl
  | a :: as => by simp [charsLt, charsLt_irrefl as]

theorem charsLt_trans (a : Chars) :
    ∀ b c : Chars, charsLt a b = true → charsLt b c = true → charsLt a c = true := by
  induction a with
  | nil =>
    intro b c hab hbc
    cases b with
    | nil => exact absurd hab (by simp [charsLt])
    | cons y ys =>
      cases c with
      | nil => exact absurd hbc (by simp [charsLt])
      | cons z zs => simp [charsLt]
  | cons x xs ih =>
    intro b c hab hbc
    cases b with
    | nil => exact absurd hab (by simp [charsLt])
    | cons y ys =>
      cases c with
      | nil => exact absurd hbc (by simp [charsLt])
      | cons z zs =>
        simp only [charsLt] at hab hbc ⊢
        split_ifs at hab hbc ⊢ with h1 h2 h3 h4 h5 h6 <;>
          first
            | rfl
            | omega
            | exact ih ys zs hab hbc
            | simp_all

theorem charsLt_connex (a : Chars) :
    ∀ b : Chars, charsLt a b = false → charsLt b a = false → a = b := by
  induction a with
  | nil =>
    intro b hab _
    cases b with
    | nil => rfl
    | cons y ys => exact absurd hab (by simp [charsLt])
  | cons x xs ih =>
    intro b hab hba
    cases b with
    | nil => exact absurd hba (by simp [charsLt])
    | cons y ys =>
      simp only [charsLt] at hab hba
      split_ifs at hab hba with h1 h2 <;> first
        | (have hn : x.toNat = y.toNat := by omega
           have hxy : x = y := Char.ext (UInt32.ext hn)
           subst hxy
           exact congrArg (x :: ·) (ih ys hab hba))
        | simp_all

theorem charsLt_asymm (a b : Chars) (h : charsLt a b = true) : charsLt b a = false := by
  cases hba : charsLt b a with
  | false => rfl
  | true => exact absurd (charsLt_trans a b a h hba) (by simp [charsLt_irrefl])

theorem charsLe_total (a b : Chars) : charsLe a b = true ∨ charsLe b a = true := by
  cases hab : charsLt a b with
  | false => exact Or.inr (by simp [charsLe, hab])
  | true => exact Or.inl (by simp [charsLe, charsLt_asymm a b hab])

theorem charsLe_trans (a b c : Chars) (hab : charsLe a b = true) (hbc : charsLe b c = true) :
    charsLe a c = true := by
  simp only [charsLe, Bool.not_eq_true'] at hab hbc ⊢
  cases hca : charsLt c a with
  | false => rfl
  | true =>
    cases hlt : charsLt a b with
    | true => exact absurd (charsLt_trans c a b hca hlt) (by simp [hbc])
    | false =>
      have hx := charsLt_connex a b hlt hab
      rw [← hx] at hbc
      simp [hca] at hbc

theorem keyLe_total (a b : Key) : keyLe a b = true ∨ keyLe b a = true := by
  cases h1 : charsLt a.1.data b.1.data with
  | true => exact Or.inl (by simp [keyLe, h1])
  | false =>
    cases h2 : charsLt b.1.data a.1.data with
    | true => exact Or.inr (by simp [keyLe, h2])
    | false =>
      rcases charsLe_total a.2.data b.2.data with h | h
      · exact Or.inl (by simp [keyLe, h1, h2, h])
      · exact Or.inr (by simp [keyLe, h1, h2, h])

theorem keyLe_trans (a b c : Key) (hab : keyLe a b = true) (hbc : keyLe b c = true) :
    keyLe a c = true := by
  unfold keyLe at hab hbc ⊢
  cases h1 : charsLt a.1.data b.1.data with
  | true =>
    cases h2 : charsLt b.1.data c.1.data with
    | true => simp [charsLt_trans _ _ _ h1 h2]
    | false =>
      cases h3 : charsLt c.1.data b.1.data with
      | true =>
        rw [if_neg (by simp [h2]), if_pos h3] at hbc
        exact absurd hbc (by simp)
      | false =>
        have e := charsLt_connex _ _ h2 h3
        have h4 : charsLt a.1.data c.1.data = true := by rw [← e]; exact h1
        simp [h4]
  | false =>
    cases h1b : charsLt b.1.data a.1.data with
    | true =>
      rw [if_neg (by simp [h1]), if_pos h1b] at hab
      exact absurd hab (by simp)
    | false =>
      have e1 := charsLt_connex _ _ h1 h1b
      rw [if_neg (by simp [h1]), if_neg (by simp [h1b])] at hab
      cases h2 : charsLt b.1.data c.1.data with
      | true =>
        have h4 : charsLt a.1.data c.1.data = true := by rw [e1]; exact h2
        simp [h4]
      | false =>
        cases h3 : charsLt c.1.data b.1.data with
        | true =>
          rw [if_neg (by simp [h2]), if_pos h3] at hbc
          exact absurd hbc (by simp)
        | false =>
          have e2 := charsLt_connex _ _ h2 h3
          rw [if_neg (by simp [h2]), if_neg (by simp [h3])] at hbc
          have h5 : charsLt a.1.data c.1.data = false := by rw [e1, e2]; exact charsLt_irrefl _
          have h6 : charsLt c.1.data a.1.data = false := by rw [e1]; exact h3
          rw [if_neg (by simp [h5]), if_neg (by simp [h6])]
          exact charsLe_trans _ _ _ hab hbc

theorem labelLe_total (a b : String × String) : labelLe a b = true ∨ labelLe b a = true :=
  charsLe_total a.1.data b.1.data

theorem labelLe_trans (a b c : String × String) (hab : labelLe a b = true)
    (hbc : labelLe b c = true) : labelLe a c = true :=
  charsLe_trans a.1.data b.1.data c.1.data hab hbc

theorem getKey_bump_self (l : List (Key × Bucket)) (k : Key) (x : ℚ) :
    getKey (bump l k x) k =
      some ⟨((getKey l k).getD ⟨0, 0⟩).count + 1, ((getKey l k).getD ⟨0, 0⟩).sum + x⟩ := by
  induction l with
  | nil => simp [bump, getKey]
  | cons e rest ih =>
    obtain ⟨k1, b⟩ := e
    by_cases h : k1 = k
    · subst h
      simp [bump, getKey]
    · simp [bump, getKey, h, ih]

theorem getKey_bump_ne (l : List (Key × Bucket)) (k k1 : Key) (x : ℚ) (h : k1 ≠ k) :
    getKey (bump l k x) k1 = getKey l k1 := by
  induction l with
  | nil => simp [bump, getKey, Ne.symm h]
  | cons e rest ih =>
    obtain ⟨k2, b⟩ := e
    by_cases h2 : k2 = k
    · subst h2
      simp [bump, getKey, Ne.symm h]
    · simp [bump, getKey, h2, ih]

theorem bump_count_sum (l : List (Key × Bucket)) (k : Key) (x : ℚ) :
    ((bump l k x).map (fun e => e.2.count)).sum = (l.map (fun e => e.2.count)).sum + 1 := by
  induction l with
  | nil => simp [bump]
  | cons e rest ih =>
    obtain ⟨k1, b⟩ := e
    by_cases h : k1 = k
    · subst h
      simp [bump]
      omega
    · simp [bump, h, ih]
      omega

theorem bump_sum_sum (l : List (Key × Bucket)) (k : Key) (x : ℚ) :
    ((bump l k x).map (fun e => e.2.sum)).sum = (l.map (fun e => e.2.sum)).sum + x := by
  induction l with
  | nil => simp [bump]
  | cons e rest ih =>
    obtain ⟨k1, b⟩ := e
    by_cases h : k1 = k
    · subst h
      simp [bump]
      ring
    · simp [bump, h, ih]
      ring

theorem ratOfDigits_nonneg (ds fs : Chars) : 0 ≤ ratOfDigits ds fs := by
  unfold ratOfDigits
  positivity

theorem findDuration_nonneg (l : Chars) (x : ℚ) (h : findDuration l = some x) : 0 ≤ x := by
  unfold findDuration at h
  cases hd : findDurationDigits l with
  | none => rw [hd] at h; exact absurd h (by simp)
  | some g =>
    rw [hd] at h
    simp only [Option.map_some', Option.some.injEq] at h
    rw [← h]
    exact ratOfDigits_nonneg g.1 g.2

theorem stateLE_refl (s : AggState) : stateLE s s :=
  ⟨le_refl _, le_refl _, fun _ b hb => ⟨b, hb, le_refl _, le_refl _⟩⟩

theorem stateLE_trans (s t u : AggState) (h1 : stateLE s t) (h2 : stateLE t u) :
    stateLE s u := by
  obtain ⟨hc1, hs1, hb1⟩ := h1
  obtain ⟨hc2, hs2, hb2⟩ := h2
  refine ⟨le_trans hc1 hc2, le_trans hs1 hs2, fun k b hb => ?_⟩
  obtain ⟨b1, hb1e, hb1c, hb1s⟩ := hb1 k b hb
  obtain ⟨b2, hb2e, hb2c, hb2s⟩ := hb2 k b1 hb1e
  exact ⟨b2, hb2e, le_trans hb1c hb2c, le_trans hb1s hb2s⟩

theorem processLine_stateLE (θ : ℚ) (st : AggState) (line : Chars) :
    stateLE st (processLine θ st line) := by
  cases hd : findDuration line with
  | none => simp only [processLine, hd]; exact stateLE_refl st
  | some dur =>
    simp only [processLine, hd]
    by_cases hc : θ ≤ dur
    · rw [if_pos hc]
      have hdnn : 0 ≤ dur := findDuration_nonneg line dur hd
      refine ⟨Nat.le_succ _, le_add_of_nonneg_right hdnn, fun k b hb => ?_⟩
      by_cases hk : k = (match findUserDb line with
          | some (u, d) => ((⟨u⟩ : String), (⟨d⟩ : String))
          | none => ("unknown", "unknown"))
      · rw [hk]
        rw [getKey_bump_self]
        refine ⟨_, rfl, ?_, ?_⟩
        · rw [← hk, hb]
          exact Nat.le_succ _
        · rw [← hk, hb]
          exact le_add_of_nonneg_right hdnn
      · rw [getKey_bump_ne _ _ _ _ hk]
        exact ⟨b, hb, le_refl _, le_refl _⟩
    · rw [if_neg hc]
      exact stateLE_refl st

theorem processLine_nonneg (θ : ℚ) (st : AggState) (line : Chars) (h : stateNonneg st) :
    stateNonneg (processLine θ st line) := by
  obtain ⟨hc0, hs0, hb0⟩ := h
  cases hd : findDuration line with
  | none => simp only [processLine, hd]; exact ⟨hc0, hs0, hb0⟩
  | some dur =>
    simp only [processLine, hd]
    by_cases hc : θ ≤ dur
    · rw [if_pos hc]
      have hdnn : 0 ≤ dur := findDuration_nonneg line dur hd
      refine ⟨Nat.zero_le _, add_nonneg hs0 hdnn, fun k b hb => ?_⟩
      by_cases hk : k = (match findUserDb line with
          | some (u, d) => ((⟨u⟩ : String), (⟨d⟩ : String))
          | none => ("unknown", "unknown"))
      · rw [hk, getKey_bump_self, Option.some.injEq] at hb
        rw [← hb]
        refine ⟨Nat.zero_le _, add_nonneg ?_ hdnn⟩
        cases hg : getKey st.per_key k with
        | none => rw [← hk, hg]; norm_num
        | some b0 =>
          rw [← hk, hg]
          exact (hb0 k b0 hg).2
      · rw [getKey_bump_ne _ _ _ _ hk] at hb
        exact hb0 k b hb
    · rw [if_neg hc]
      exact ⟨hc0, hs0, hb0⟩

theorem foldl_nonneg (θ : ℚ) (ls : List Chars) :
    ∀ st : AggState, stateNonneg st → stateNonneg (ls.foldl (processLine θ) st) := by
  induction ls with
  | nil => intro st h; exact h
  | cons l rest ih =>
    intro st h
    exact ih (processLine θ st l) (processLine_nonneg θ st l h)

theorem foldl_stateLE (θ : ℚ) (ls : List Chars) :
    ∀ st : AggState, stateLE st (ls.foldl (processLine θ) st) := by
  induction ls with
  | nil => intro st; exact stateLE_refl st
  | cons l rest ih =>
    intro st
    exact stateLE_trans _ _ _ (processLine_stateLE θ st l) (ih (processLine θ st l))

theorem processLine_partitioned (θ : ℚ) (st : AggState) (line : Chars)
    (h : partitioned st) : partitioned (processLine θ st line) := by
  obtain ⟨hcount, hsum⟩ := h
  cases hd : findDuration line with
  | none => simp only [processLine, hd]; exact ⟨hcount, hsum⟩
  | some dur =>
    simp only [processLine, hd]
    by_cases hc : θ ≤ dur
    · rw [if_pos hc]
      constructor
      · rw [bump_count_sum, hcount]
      · rw [bump_sum_sum, hsum]
    · rw [if_neg hc]
      exact ⟨hcount, hsum⟩

theorem foldl_partitioned (θ : ℚ) (ls : List Chars) :
    ∀ st : AggState, partitioned st → partitioned (ls.foldl (processLine θ) st) := by
  induction ls with
  | nil => intro st h; exact h
  | cons l rest ih =>
    intro st h
    exact ih (processLine θ st l) (processLine_partitioned θ st l h)

theorem runPub_putChars (old : Option Chars) (cs : Chars) :
    ∀ (j : Nat) (t : Chars),
      runPub ⟨old, some t⟩ ((cs.map PubOp.putChar).take j) = ⟨old, some (t ++ cs.take j)⟩ := by
  induction cs with
  | nil => intro j t; simp [runPub]
  | cons c rest ih =>
    intro j t
    cases j with
    | zero => simp [runPub]
    | succ j1 =>
      simp only [List.map_cons, List.take_succ_cons, runPub, List.foldl_cons]
      rw [show applyPubOp ⟨old, some t⟩ (PubOp.putChar c) = ⟨old, some (t ++ [c])⟩ from rfl]
      have h1 := ih j1 (t ++ [c])
      simp only [runPub] at h1
      rw [h1]
      simp

/-- C2: the metrics publish writes the payload to a temporary file, syncs
it, and atomically renames it over the destination; aborting the action
sequence at any point before the final rename leaves the destination's
previous content unchanged, so a reader always sees either the old or the
new complete content, never a partial file. -/
theorem c2_publish_atomic (old : Option Chars) (content : Chars) (k : Nat) :
    (runPub ⟨old, none⟩ ((pubOps content).take k)).dest =
      if (pubOps content).length ≤ k then some content else old := by
  cases k with
  | zero =>
    rw [if_neg (by simp [pubOps])]
    simp [runPub]
  | succ j =>
    simp only [pubOps, List.take_succ_cons, runPub, List.foldl_cons]
    rw [show applyPubOp ⟨old, none⟩ PubOp.mkTemp = ⟨old, some []⟩ from rfl]
    rw [List.take_append_eq_append_take, List.foldl_append]
    have h1 := runPub_putChars old content j []
    simp only [runPub] at h1
    rw [h1]
    simp only [List.nil_append, List.length_map]
    by_cases hj : content.length + 3 ≤ j
    · have hm : j - content.length = (j - content.length - 3) + 3 := by omega
      have ht : List.take (j - content.length - 3 + 3)
          [PubOp.flushTmp, PubOp.fsyncTmp, PubOp.renameTmpToDest]
          = [PubOp.flushTmp, PubOp.fsyncTmp, PubOp.renameTmpToDest] := by
        apply List.take_of_length_le
        simp only [List.length_cons, List.length_nil]
        omega
      rw [hm, ht]
      rw [if_pos (by simp [List.length_append]; omega)]
      simp [runPub, applyPubOp, List.take_of_length_le (by omega : content.length ≤ j)]
    · rw [if_neg (by simp [List.length_append]; omega)]
      have hm : j - content.length = 0 ∨ j - content.length = 1 ∨ j - content.length = 2 := by
        omega
      rcases hm with h | h | h <;> rw [h] <;> simp [runPub, applyPubOp]

/-- C1: a processed line with duration X at or above the threshold raises
the global count by exactly 1 and the global sum by exactly X; a line with
X below the threshold leaves the whole state (globals and every bucket)
unchanged. -/
theorem c1_threshold_counting (θ : ℚ) (st : AggState) (line : Chars) (x : ℚ)
    (h : findDuration line = some x) :
    (θ ≤ x →
      (processLine θ st line).slow_count_total = st.slow_count_total + 1 ∧
      (processLine θ st line).slow_ms_sum_total = st.slow_ms_sum_total + x) ∧
    (x < θ → processLine θ st line = st) := by
  constructor
  · intro hle
    simp only [processLine, h]
    rw [if_pos hle]
    exact ⟨rfl, rfl⟩
  · intro hlt
    simp only [processLine, h]
    rw [if_neg (not_le.mpr hlt)]

theorem c1_threshold_counting_witness :
    (processLine 500 initState "LOG: duration: 600 ms\n".data).slow_count_total
        = initState.slow_count_total + 1 ∧
    (processLine 500 initState "LOG: duration: 600 ms\n".data).slow_ms_sum_total
        = initState.slow_ms_sum_total + 600 ∧
    processLine 700 initState "LOG: duration: 600 ms\n".data = initState := by
  have h6 : findDuration "LOG: duration: 600 ms\n".data = some 600 := by
    rw [findDuration, show findDurationDigits "LOG: duration: 600 ms\n".data
        = some ("600".data, []) from by decide]
    simp only [Option.map_some']
    norm_num [ratOfDigits, show natOfDigits "600".data = 600 from rfl,
      show natOfDigits ([] : Chars) = 0 from rfl]
  have t1 := (c1_threshold_counting 500 initState _ 600 h6).1 (by norm_num)
  have t2 := (c1_threshold_counting 700 initState _ 600 h6).2 (by norm_num)
  exact ⟨t1.1, t1.2, t2⟩

/-- C8: a line without a duration marker leaves the entire aggregate state
unchanged, even when it carries an attribute marker. -/
theorem c8_no_duration_frame (θ : ℚ) (st : AggState) (line : Chars)
    (h : findDuration line = none) : processLine θ st line = st := by
  simp only [processLine, h]

theorem c8_no_duration_frame_witness :
    processLine 500 initState "x alice@orders y\n".data = initState ∧
    findUserDb "x alice@orders y\n".data ≠ none := by
  constructor
  · apply c8_no_duration_frame
    rw [findDuration, show findDurationDigits "x alice@orders y\n".data = none from by decide]
    rfl
  · decide

/-- C9: counts and sums are nonnegative in every bucket after any sequence
of processed lines, and both the global counters and every per-key bucket
are monotonically non-decreasing as further lines are processed. -/
theorem c9_counters_monotone (θ : ℚ) (ls ls2 : List Chars) :
    stateNonneg (runLines θ ls) ∧ stateLE (runLines θ ls) (runLines θ (ls ++ ls2)) := by
  constructor
  · refine foldl_nonneg θ ls initState ⟨le_refl _, le_refl _, fun k b hb => ?_⟩
    simp [initState, getKey] at hb
  · rw [runLines, runLines, List.foldl_append]
    exact foldl_stateLE θ ls2 _

/-- C10: after any sequence of processed lines the per-key bucket counts
sum to the global count and the per-key bucket sums add up to the global
sum: each counted observation lands in exactly one keyed bucket. -/
theorem c10_buckets_partition (θ : ℚ) (ls : List Chars) : partitioned (runLines θ ls) :=
  foldl_partitioned θ ls initState ⟨rfl, rfl⟩

/-- C5: rendering is a pure function of the aggregate state (two renderings
of the same state are byte-identical); the per-key buckets are rendered
sorted by the (user, db) key pair whatever their insertion order was (in
particular inserting bob before alice renders alice first), and the label
items inside a label set are sorted ascending by label name. -/
theorem c5_render_deterministic_sorted (extra : List (String × String)) (st : AggState)
    (db user : Option String) :
    render extra st = render extra st ∧
    List.Sorted entryLE (sortedPerKey st.per_key) ∧
    (sortedPerKey st.per_key).Perm st.per_key ∧
    List.Sorted labelLE (sortedLabelItems extra db user) ∧
    sortedPerKey [(("bob", "billing"), ⟨1, 1⟩), (("alice", "orders"), ⟨2, 2⟩)]
      = [(("alice", "orders"), ⟨2, 2⟩), (("bob", "billing"), ⟨1, 1⟩)] := by
  refine ⟨rfl, ?_, ?_, ?_, by decide⟩
  · haveI : IsTotal (Key × Bucket) entryLE := ⟨fun a b => keyLe_total a.1 b.1⟩
    haveI : IsTrans (Key × Bucket) entryLE :=
      ⟨fun a b c hab hbc => keyLe_trans a.1 b.1 c.1 hab hbc⟩
    exact List.sorted_insertionSort entryLE st.per_key
  · exact List.perm_insertionSort entryLE st.per_key
  · haveI : IsTotal (String × String) labelLE := ⟨labelLe_total⟩
    haveI : IsTrans (String × String) labelLE :=
      ⟨fun a b c hab hbc => labelLe_trans a b c hab hbc⟩
    unfold sortedLabelItems
    exact List.sorted_insertionSort labelLE _

/-- C6: the spec's example line lands in bucket ("alice", "orders") with
count 1 and sum 750.5 for any threshold at most 750.5, and any line whose
duration meets the threshold but that has no attribute marker is attributed
to the ("unknown", "unknown") bucket. -/
theorem c6_attribute_extraction :
    (∀ θ : ℚ, θ ≤ 750.5 →
      processLine θ initState
        "2024-01-01 10:00:00 UTC [123] alice@orders LOG: duration: 750.5 ms statement: ...".data
        = ⟨1, 750.5, [(("alice", "orders"), ⟨1, 750.5⟩)]⟩) ∧
    (∀ (θ : ℚ) (st : AggState) (line : Chars) (x : ℚ),
      findUserDb line = none → findDuration line = some x → θ ≤ x →
      getBucket (processLine θ st line) ("unknown", "unknown")
        = ⟨(getBucket st ("unknown", "unknown")).count + 1,
           (getBucket st ("unknown", "unknown")).sum + x⟩) := by
  constructor
  · intro θ hθ
    have hv : ratOfDigits "750".data "5".data = 750.5 := by
      norm_num [ratOfDigits, show natOfDigits "750".data = 750 from rfl,
        show natOfDigits "5".data = 5 from rfl]
    have hd : findDuration
        "2024-01-01 10:00:00 UTC [123] alice@orders LOG: duration: 750.5 ms statement: ...".data
        = some 750.5 := by
      rw [findDuration,
        show findDurationDigits
            "2024-01-01 10:00:00 UTC [123] alice@orders LOG: duration: 750.5 ms statement: ...".data
          = some ("750".data, "5".data) from by decide]
      simp only [Option.map_some']
      rw [hv]
    rw [processLine, hd]
    norm_num [show findUserDb
        "2024-01-01 10:00:00 UTC [123] alice@orders LOG: duration: 750.5 ms statement: ...".data
        = some ("alice".data, "orders".data) from by decide, initState, bump, hθ]
    norm_num at hθ
    exact hθ
  · intro θ st line x hud hd hθx
    simp only [processLine, hd, hud]
    rw [if_pos hθx]
    unfold getBucket
    simp only [getKey_bump_self]
    rfl

theorem c6_attribute_extraction_witness :
    processLine 500 initState
      "2024-01-01 10:00:00 UTC [123] alice@orders LOG: duration: 750.5 ms statement: ...".data
      = ⟨1, 750.5, [(("alice", "orders"), ⟨1, 750.5⟩)]⟩ ∧
    getBucket (processLine 500 initState "LOG: duration: 600 ms\n".data) ("unknown", "unknown")
      = ⟨(getBucket initState ("unknown", "unknown")).count + 1,
         (getBucket initState ("unknown", "unknown")).sum + 600⟩ := by
  have h6 : findDuration "LOG: duration: 600 ms\n".data = some 600 := by
    rw [findDuration, show findDurationDigits "LOG: duration: 600 ms\n".data
        = some ("600".data, []) from by decide]
    simp only [Option.map_some']
    norm_num [ratOfDigits, show natOfDigits "600".data = 600 from rfl,
      show natOfDigits ([] : Chars) = 0 from rfl]
  exact ⟨c6_attribute_extraction.1 500 (by norm_num),
    c6_attribute_extraction.2 500 initState _ 600 (by decide) h6 (by norm_num)⟩

theorem dropWhile_head_false (p : Char → Bool) :
    ∀ (l : Chars) (x : Char) (xs : Chars), l.dropWhile p = x :: xs → p x = false := by
  intro l
  induction l with
  | nil => intro x xs h; simp [List.dropWhile] at h
  | cons c cs ih =>
    intro x xs h
    cases hp : p c with
    | true =>
      simp only [List.dropWhile, hp] at h
      exact ih x xs h
    | false =>
      simp only [List.dropWhile, hp] at h
      injection h with h1 _
      rw [← h1]
      exact hp

theorem matchUserDbAt_sound (l u d : Chars) (h : matchUserDbAt l = some (u, d)) :
    u ≠ [] ∧ d ≠ [] ∧ (∀ c ∈ u, isUserChar c = true) ∧ (∀ c ∈ d, isPySpace c = false) ∧
    ∃ w1 w2 suf, l = w1 :: (u ++ '@' :: (d ++ w2 :: suf)) ∧
      isPySpace w1 = true ∧ isPySpace w2 = true := by
  cases l with
  | nil => exact absurd h (by simp [matchUserDbAt])
  | cons c cs =>
    cases hsp : isPySpace c with
    | false =>
      simp only [matchUserDbAt] at h
      rw [if_neg (by simp [hsp])] at h
      exact absurd h (by simp)
    | true =>
      simp only [matchUserDbAt] at h
      rw [if_pos hsp] at h
      cases hne : (cs.takeWhile isUserChar).isEmpty with
      | true => rw [hne, if_pos rfl] at h; exact absurd h (by simp)
      | false =>
        rw [hne, if_neg (by simp)] at h
        cases hdrop : cs.dropWhile isUserChar with
        | nil => rw [hdrop] at h; exact absurd h (by simp)
        | cons a r2 =>
          rw [hdrop] at h
          simp only at h
          by_cases hat : a = '@'
          case neg => rw [if_neg hat] at h; exact absurd h (by simp)
          case pos =>
            subst hat
            rw [if_pos rfl] at h
            cases hdne : (r2.takeWhile (fun x => !isPySpace x)).isEmpty with
            | true => rw [hdne, if_pos rfl] at h; exact absurd h (by simp)
            | false =>
              rw [hdne, if_neg (by simp)] at h
              cases hr3 : (r2.dropWhile (fun x => !isPySpace x)).isEmpty with
              | true => rw [hr3, if_pos rfl] at h; exact absurd h (by simp)
              | false =>
                rw [hr3, if_neg (by simp)] at h
                rw [Option.some.injEq, Prod.mk.injEq] at h
                obtain ⟨hu, hd⟩ := h
                subst hu
                subst hd
                have hne1 : cs.takeWhile isUserChar ≠ [] := by
                  intro he
                  rw [he] at hne
                  simp at hne
                have hdne1 : r2.takeWhile (fun x => !isPySpace x) ≠ [] := by
                  intro he
                  rw [he] at hdne
                  simp at hdne
                refine ⟨hne1, hdne1, fun x hx => List.mem_takeWhile_imp hx, ?_, ?_⟩
                · intro x hx
                  have hp := List.mem_takeWhile_imp hx
                  simpa using hp
                · cases hr3e : r2.dropWhile (fun x => !isPySpace x) with
                  | nil =>
                    rw [hr3e] at hr3
                    simp at hr3
                  | cons w2 suf =>
                    have hw2 : isPySpace w2 = true := by
                      have hp := dropWhile_head_false (fun x => !isPySpace x) r2 w2 suf hr3e
                      simpa using hp
                    refine ⟨c, w2, suf, ?_, hsp, hw2⟩
                    have e1 : cs.takeWhile isUserChar ++ cs.dropWhile isUserChar = cs :=
                      List.takeWhile_append_dropWhile ..
                    have e2 : r2.takeWhile (fun x => !isPySpace x)
                        ++ r2.dropWhile (fun x => !isPySpace x) = r2 :=
                      List.takeWhile_append_dropWhile ..
                    rw [hdrop] at e1
                    rw [hr3e] at e2
                    conv_lhs => rw [← e1]
                    conv_lhs => rw [← e2]

/-- C7 counterexample: in the line consisting of the single
whitespace-delimited token a@b@c, the token contains two @ characters, yet
the extractor produces the attribute pair ("a", "b@c") instead of no
pair. -/
theorem c7_counterexample :
    findUserDb " a@b@c ".data = some ("a".data, "b@c".data) ∧
    findUserDb " a@b@c ".data ≠ none :=
  ⟨by decide, by decide⟩

theorem findUserDb_sound (line u d : Chars) (h : findUserDb line = some (u, d)) :
    u ≠ [] ∧ d ≠ [] ∧ (∀ c ∈ u, isUserChar c = true) ∧ (∀ c ∈ d, isPySpace c = false) ∧
    ∃ pre w1 w2 suf, line = pre ++ w1 :: (u ++ '@' :: (d ++ w2 :: suf)) ∧
      isPySpace w1 = true ∧ isPySpace w2 = true := by
  induction line with
  | nil => exact absurd h (by simp [findUserDb])
  | cons c cs ih =>
    simp only [findUserDb] at h
    cases hm : matchUserDbAt (c :: cs) with
    | some ud =>
      obtain ⟨u0, d0⟩ := ud
      rw [hm] at h
      simp only [Option.some.injEq, Prod.mk.injEq] at h
      obtain ⟨hu, hd⟩ := h
      subst hu
      subst hd
      obtain ⟨h1, h2, h3, h4, w1, w2, suf, heq, hw1, hw2⟩ :=
        matchUserDbAt_sound (c :: cs) u0 d0 hm
      exact ⟨h1, h2, h3, h4, [], w1, w2, suf, by rw [List.nil_append]; exact heq, hw1, hw2⟩
    | none =>
      rw [hm] at h
      obtain ⟨h1, h2, h3, h4, pre, w1, w2, suf, heq, hw1, hw2⟩ := ih h
      exact ⟨h1, h2, h3, h4, c :: pre, w1, w2, suf, by rw [List.cons_append, heq], hw1, hw2⟩

theorem takeWhile_all_append (p : Char → Bool) (l1 : Chars) (x : Char) (l2 : Chars)
    (h : ∀ c ∈ l1, p c = true) (hx : p x = false) :
    (l1 ++ x :: l2).takeWhile p = l1 := by
  induction l1 with
  | nil => simp [List.takeWhile_cons, hx]
  | cons a l ih =>
    have ha : p a = true := h a (List.mem_cons_self a l)
    simp [List.takeWhile_cons, ha, ih (fun c hc => h c (List.mem_cons_of_mem a hc))]

theorem dropWhile_all_append (p : Char → Bool) (l1 : Chars) (x : Char) (l2 : Chars)
    (h : ∀ c ∈ l1, p c = true) (hx : p x = false) :
    (l1 ++ x :: l2).dropWhile p = x :: l2 := by
  induction l1 with
  | nil => simp [List.dropWhile_cons, hx]
  | cons a l ih =>
    have ha : p a = true := h a (List.mem_cons_self a l)
    simp [List.dropWhile_cons, ha, ih (fun c hc => h c (List.mem_cons_of_mem a hc))]

theorem matchUserDbAt_complete (u d suf : Chars) (w1 w2 : Char)
    (hw1 : isPySpace w1 = true) (hw2 : isPySpace w2 = true)
    (hu : u ≠ []) (hud : ∀ c ∈ u, isUserChar c = true)
    (hd : d ≠ []) (hdd : ∀ c ∈ d, isPySpace c = false) :
    matchUserDbAt (w1 :: (u ++ '@' :: (d ++ w2 :: suf))) = some (u, d) := by
  have ht1 : (u ++ '@' :: (d ++ w2 :: suf)).takeWhile isUserChar = u :=
    takeWhile_all_append isUserChar u '@' _ hud (by decide)
  have hd1 : (u ++ '@' :: (d ++ w2 :: suf)).dropWhile isUserChar = '@' :: (d ++ w2 :: suf) :=
    dropWhile_all_append isUserChar u '@' _ hud (by decide)
  have ht2 : (d ++ w2 :: suf).takeWhile (fun x => !isPySpace x) = d :=
    takeWhile_all_append _ d w2 suf (fun c hc => by simp [hdd c hc]) (by simp [hw2])
  have hd2 : (d ++ w2 :: suf).dropWhile (fun x => !isPySpace x) = w2 :: suf :=
    dropWhile_all_append _ d w2 suf (fun c hc => by simp [hdd c hc]) (by simp [hw2])
  simp only [matchUserDbAt]
  rw [if_pos hw1, ht1, hd1]
  rw [if_neg (by simp [hu])]
  simp only
  rw [if_pos trivial, ht2, hd2]
  rw [if_neg (by simp [hd]), if_neg (by simp)]

theorem findUserDb_first (line u d : Chars) :
    findUserDb line = some (u, d) ↔
      ∃ i, matchUserDbAt (line.drop i) = some (u, d) ∧
        ∀ j, j < i → matchUserDbAt (line.drop j) = none := by
  induction line with
  | nil => simp [findUserDb, List.drop_nil, matchUserDbAt]
  | cons c cs ih =>
    simp only [findUserDb]
    cases hm : matchUserDbAt (c :: cs) with
    | some ud =>
      obtain ⟨u0, d0⟩ := ud
      constructor
      · intro h
        simp only [Option.some.injEq, Prod.mk.injEq] at h
        obtain ⟨hu, hd⟩ := h
        subst hu
        subst hd
        exact ⟨0, by rw [List.drop_zero]; exact hm,
          fun j hj => absurd hj (Nat.not_lt_zero j)⟩
      · rintro ⟨i, hi, hall⟩
        cases i with
        | zero =>
          rw [List.drop_zero, hm] at hi
          exact hi
        | succ i1 =>
          have h0 := hall 0 (Nat.succ_pos i1)
          rw [List.drop_zero, hm] at h0
          exact absurd h0 (by simp)
    | none =>
      change findUserDb cs = some (u, d) ↔ _
      rw [ih]
      constructor
      · rintro ⟨i, hi, hall⟩
        refine ⟨i + 1, by rw [List.drop_succ_cons]; exact hi, ?_⟩
        intro j hj
        cases j with
        | zero => rw [List.drop_zero]; exact hm
        | succ j1 =>
          rw [List.drop_succ_cons]
          exact hall j1 (by omega)
      · rintro ⟨i, hi, hall⟩
        cases i with
        | zero =>
          rw [List.drop_zero, hm] at hi
          exact absurd hi (by simp)
        | succ i1 =>
          refine ⟨i1, by rw [List.drop_succ_cons] at hi; exact hi, ?_⟩
          intro j hj
          have hj1 := hall (j + 1) (by omega)
          rw [List.drop_succ_cons] at hj1
          exact hj1

/-- C7 (amended): the extractor is fully characterised by leftmost matching
of USER_DB_RE: findUserDb returns the pair (u, d) exactly when some
position of the line matches with result (u, d) while every earlier
position fails to match (only the first match is used); every returned
pair comes from a segment of the line of the shape whitespace, nonempty
run of non-whitespace non-@ characters (the subject), @, nonempty run of
non-whitespace characters (the resource, which may contain further @
characters), whitespace; and conversely every suffix of exactly that shape
matches, yielding the pair that splits the token at its FIRST @ — so a
whitespace-delimited token with more than one @ (not starting with @)
yields a pair rather than no pair. -/
theorem c7_userdb_shape (line u d : Chars) :
    (findUserDb line = some (u, d) ↔
      ∃ i, matchUserDbAt (line.drop i) = some (u, d) ∧
        ∀ j, j < i → matchUserDbAt (line.drop j) = none) ∧
    (findUserDb line = some (u, d) →
      u ≠ [] ∧ d ≠ [] ∧ (∀ c ∈ u, isUserChar c = true) ∧ (∀ c ∈ d, isPySpace c = false) ∧
      ∃ pre w1 w2 suf, line = pre ++ w1 :: (u ++ '@' :: (d ++ w2 :: suf)) ∧
        isPySpace w1 = true ∧ isPySpace w2 = true) ∧
    (∀ (w1 w2 : Char) (suf : Chars), isPySpace w1 = true → isPySpace w2 = true →
      u ≠ [] → (∀ c ∈ u, isUserChar c = true) →
      d ≠ [] → (∀ c ∈ d, isPySpace c = false) →
      matchUserDbAt (w1 :: (u ++ '@' :: (d ++ w2 :: suf))) = some (u, d)) :=
  ⟨findUserDb_first line u d,
   findUserDb_sound line u d,
   fun w1 w2 suf hw1 hw2 hu hud hd hdd =>
     matchUserDbAt_complete u d suf w1 w2 hw1 hw2 hu hud hd hdd⟩

theorem c7_userdb_shape_witness :
    findUserDb " a@b c".data = some ("a".data, "b".data) ∧
    matchUserDbAt (' ' :: ("x".data ++ '@' :: ("y@z".data ++ ' ' :: [])))
      = some ("x".data, "y@z".data) ∧
    ("a".data ≠ [] ∧ "b".data ≠ [] ∧ (∀ c ∈ "a".data, isUserChar c = true) ∧
      (∀ c ∈ "b".data, isPySpace c = false) ∧
      ∃ pre w1 w2 suf,
        " a@b c".data = pre ++ w1 :: ("a".data ++ '@' :: ("b".data ++ w2 :: suf)) ∧
        isPySpace w1 = true ∧ isPySpace w2 = true) := by
  refine ⟨?_, ?_, ?_⟩
  · exact (c7_userdb_shape " a@b c".data "a".data "b".data).1.mpr
      ⟨0, by decide, fun j hj => absurd hj (Nat.not_lt_zero j)⟩
  · exact (c7_userdb_shape [] "x".data "y@z".data).2.2 ' ' ' ' [] (by decide) (by decide)
      (by decide) (by decide) (by decide) (by decide)
  · exact (c7_userdb_shape " a@b c".data "a".data "b".data).2.1 (by decide)

theorem chunkOf_no_nl (l : Chars) (h : '\n' ∉ l) : chunkOf l = l := by
  induction l with
  | nil => rfl
  | cons c cs ih =>
    simp only [List.mem_cons, not_or] at h
    obtain ⟨h1, h2⟩ := h
    simp only [chunkOf]
    rw [if_neg (fun he => h1 he.symm), ih h2]

theorem chunkOf_line (l rest : Chars) (h : '\n' ∉ l) :
    chunkOf (l ++ '\n' :: rest) = l ++ ['\n'] := by
  induction l with
  | nil => simp [chunkOf]
  | cons c cs ih =>
    simp only [List.mem_cons, not_or] at h
    obtain ⟨h1, h2⟩ := h
    simp only [List.cons_append, chunkOf, List.append_eq]
    rw [if_neg (fun he => h1 he.symm), ih h2]

/-- C4 counterexample: with the watched file holding the unterminated
fragment abc past the read offset, the poll yields the fragment at once,
although the claim says an unterminated trailing fragment is not yielded on
the current poll. -/
theorem c4_counterexample :
    (runFollow ⟨1, []⟩ [.append "abc".data, .poll]).2.2 = ["abc".data] ∧
    '\n' ∉ "abc".data :=
  ⟨by decide, by decide⟩

/-- C4 (amended): readline returns the data past the offset up to and
including the first newline, or all of it when no newline is present; so a
trailing unterminated fragment IS yielded on the current poll, and once the
terminator is written a later poll yields only the remainder of the line —
a line written across polls is emitted split in two pieces, never as one
complete line. -/
theorem c4_partial_line_split (w : WFile) (st : FollowSt) (pre frag r : Chars)
    (hino : st.hIno = w.ino) (hcont : st.hContent = w.content)
    (hw : w.content = pre ++ frag) (hoff : st.offset = pre.length)
    (hne : frag ≠ []) (hnl : '\n' ∉ frag) (hnr : '\n' ∉ r) :
    (stepEv (stepEv (stepEv (w, st, ([] : List Chars)) .poll)
        (.append (r ++ ['\n']))) .poll).2.2 = [frag, r ++ ['\n']] := by
  have hdrop : st.hContent.drop st.offset = frag := by
    rw [hcont, hw, hoff]
    exact List.drop_left pre frag
  have hchunk : chunkOf frag = frag := chunkOf_no_nl frag hnl
  have hp1 : pollStep w st = ({st with offset := st.offset + frag.length}, some frag) := by
    simp only [pollStep, hdrop, hchunk]
    rw [if_neg (by simp [hne])]
  have h1 : stepEv (w, st, ([] : List Chars)) LogEv.poll
      = (w, {st with offset := st.offset + frag.length}, [frag]) := by
    simp only [stepEv, hp1, Option.toList_some, List.nil_append]
  have h2 : stepEv (w, {st with offset := st.offset + frag.length}, ([frag] : List Chars))
      (LogEv.append (r ++ ['\n']))
      = ({w with content := w.content ++ (r ++ ['\n'])},
         {st with hContent := st.hContent ++ (r ++ ['\n']),
                  offset := st.offset + frag.length}, ([frag] : List Chars)) := by
    simp only [stepEv]
    rw [if_pos hino]
  have hdrop2 : (st.hContent ++ (r ++ ['\n'])).drop (st.offset + frag.length)
      = r ++ ['\n'] := by
    rw [hcont, hw, hoff, ← List.length_append]
    exact List.drop_left (pre ++ frag) (r ++ ['\n'])
  have hchunk2 : chunkOf (r ++ ['\n']) = r ++ ['\n'] := chunkOf_line r [] hnr
  have hp2 : pollStep {w with content := w.content ++ (r ++ ['\n'])}
      {st with hContent := st.hContent ++ (r ++ ['\n']), offset := st.offset + frag.length}
      = ({st with hContent := st.hContent ++ (r ++ ['\n']),
                  offset := st.offset + frag.length + (r ++ ['\n']).length},
         some (r ++ ['\n'])) := by
    simp only [pollStep, hdrop2, hchunk2]
    rw [if_neg (by simp)]
  rw [h1, h2]
  simp only [stepEv, hp2, Option.toList_some]
  rfl

theorem c4_partial_line_split_witness :
    (stepEv (stepEv (stepEv ((⟨1, "ab".data⟩ : WFile), (⟨1, "ab".data, 0⟩ : FollowSt),
        ([] : List Chars)) .poll) (.append ("c".data ++ ['\n']))) .poll).2.2
      = ["ab".data, "c".data ++ ['\n']] :=
  c4_partial_line_split ⟨1, "ab".data⟩ ⟨1, "ab".data, 0⟩ [] "ab".data "c".data
    rfl rfl rfl rfl (by decide) (by decide) (by decide)

/-- C3 counterexample: after the watched file (same inode) is truncated to
zero and the complete line x is appended, the EOF check reopens and seeks
to the end, so the follower never yields x and only yields the line y
appended after the reopen — contradicting the claim that every line
appended after truncation is yielded. -/
theorem c3_counterexample :
    (runFollow ⟨1, "0123456789\n".data⟩
      [.truncate, .append "x\n".data, .poll, .append "y\n".data, .poll]).2.2
      = ["y\n".data] ∧
    "x\n".data ∉ (runFollow ⟨1, "0123456789\n".data⟩
      [.truncate, .append "x\n".data, .poll, .append "y\n".data, .poll]).2.2 :=
  ⟨by decide, by decide⟩

/-- C3 (amended): when the EOF check detects a changed inode or a size
below the read offset, the follower closes and reopens the file and seeks
to the END of the new file's content (yielding nothing on that poll), so
content already present at reopen time is skipped and only lines appended
after the reopen are yielded, as the subsequent append-and-poll shows. -/
theorem c3_reopen_seeks_end (w : WFile) (st : FollowSt) (l : Chars)
    (hrest : st.hContent.drop st.offset = [])
    (hdet : w.ino ≠ st.hIno ∨ w.content.length < st.offset)
    (hnl : '\n' ∉ l) :
    pollStep w st = (⟨w.ino, w.content, w.content.length⟩, none) ∧
    (stepEv (stepEv (stepEv (w, st, ([] : List Chars)) .poll)
        (.append (l ++ ['\n']))) .poll).2.2 = [l ++ ['\n']] := by
  have hp : pollStep w st = (⟨w.ino, w.content, w.content.length⟩, none) := by
    simp only [pollStep, hrest, chunkOf]
    rw [if_pos (show ([] : Chars).isEmpty = true from rfl), if_pos hdet]
    rfl
  refine ⟨hp, ?_⟩
  have h1 : stepEv (w, st, ([] : List Chars)) LogEv.poll
      = (w, (⟨w.ino, w.content, w.content.length⟩ : FollowSt), ([] : List Chars)) := by
    simp only [stepEv, hp, Option.toList_none, List.append_nil]
  have h2 : stepEv (w, (⟨w.ino, w.content, w.content.length⟩ : FollowSt), ([] : List Chars))
      (LogEv.append (l ++ ['\n']))
      = ({w with content := w.content ++ (l ++ ['\n'])},
         (⟨w.ino, w.content ++ (l ++ ['\n']), w.content.length⟩ : FollowSt),
         ([] : List Chars)) := by
    simp [stepEv]
  have hdrop2 : (w.content ++ (l ++ ['\n'])).drop w.content.length = l ++ ['\n'] :=
    List.drop_left ..
  have hchunk2 : chunkOf (l ++ ['\n']) = l ++ ['\n'] := chunkOf_line l [] hnl
  have hp2 : pollStep {w with content := w.content ++ (l ++ ['\n'])}
      (⟨w.ino, w.content ++ (l ++ ['\n']), w.content.length⟩ : FollowSt)
      = ((⟨w.ino, w.content ++ (l ++ ['\n']),
            w.content.length + (l ++ ['\n']).length⟩ : FollowSt),
         some (l ++ ['\n'])) := by
    simp only [pollStep, hdrop2, hchunk2]
    rw [if_neg (by simp)]
  rw [h1, h2]
  simp only [stepEv, hp2, Option.toList_some, List.nil_append]

theorem c3_reopen_seeks_end_witness :
    pollStep (⟨2, "p\n".data⟩ : WFile) (⟨1, [], 0⟩ : FollowSt)
      = ((⟨2, "p\n".data, "p\n".data.length⟩ : FollowSt), none) ∧
    (stepEv (stepEv (stepEv ((⟨2, "p\n".data⟩ : WFile), (⟨1, [], 0⟩ : FollowSt),
        ([] : List Chars)) .poll) (.append ("q".data ++ ['\n']))) .poll).2.2
      = ["q".data ++ ['\n']] :=
  c3_reopen_seeks_end ⟨2, "p\n".data⟩ ⟨1, [], 0⟩ "q".data rfl
    (Or.inl (by decide)) (by decide)

end PgSlowwatch
